import Mathlib

set_option maxRecDepth 4000

/-!
Shallow embedding of `src/main.rs` of the `colors` repository: a one-shot
extractor that classifies HTML paragraph nodes into `Component` values
(a normalized name, or an RGB triple parsed out of a `title` attribute),
pairs them into `Color` records, and renders the records as CSV or XML.

Machine integers (`u8`) are modelled as `Nat` with explicit bounds where
overflow matters; fallible operations (Rust `unwrap` panics on `Option` /
`Result`) are modelled as `Except` values; Rust strings are modelled as
`String` / `List Char`.
-/

namespace Colors

/-- Component: the tagged union `enum Component` of src/main.rs
(`Name(String)` or `Rgb(u8, u8, u8)`). The `u8` fields are `Nat`s;
the classifier only ever produces values `≤ 255`. -/
inductive Component where
  | Name : String → Component
  | Rgb : Nat → Nat → Nat → Component
deriving DecidableEq

/-- Color: the output record `struct Color` of src/main.rs. -/
structure Color where
  name : String
  red : Nat
  green : Nat
  blue : Nat
deriving DecidableEq

/-- chunks2 models Rust's `slice::chunks(2)` as used in `load_colors`:
consecutive non-overlapping groups of two, in order; when the length is
odd the final group is a singleton (it is NOT discarded). -/
def chunks2 : List α → List (List α)
  | [] => []
  | [a] => [[a]]
  | a :: b :: rest => [a, b] :: chunks2 rest

/-- foldComponent is the body of the `for component in pair.iter()` loop in
`load_colors`: a `Name` overwrites the record's `name` field, an `Rgb`
overwrites `red`/`green`/`blue`. -/
def foldComponent (color : Color) : Component → Color
  | .Name n => { color with name := n }
  | .Rgb r g b => { color with red := r, green := g, blue := b }

/-- mkColor models the closure passed to `.map` over `nodes.chunks(2)`:
start from the default record (empty name, zero channels) and fold the
group's members into it. -/
def mkColor (pair : List Component) : Color :=
  pair.foldl foldComponent ⟨"", 0, 0, 0⟩

/-- assembleRecords is the Record Assembler stage of `load_colors`
(lines 154–177): `nodes.chunks(2).map(...)`. -/
def assembleRecords (comps : List Component) : List Color :=
  (chunks2 comps).map mkColor

theorem chunks2_length : ∀ (l : List α), (chunks2 l).length = (l.length + 1) / 2
  | [] => by simp [chunks2]
  | [_] => by simp [chunks2]
  | _ :: _ :: rest => by
    have ih := chunks2_length rest
    simp only [chunks2, List.length_cons, ih]
    omega

theorem chunks2_ne_nil {l : List α} (h : l ≠ []) : chunks2 l ≠ [] := by
  match l with
  | [_] => simp [chunks2]
  | _ :: _ :: rest => simp [chunks2]

theorem chunks2_getLast?_odd :
    ∀ (l : List α), l.length % 2 = 1 →
      ∃ x, l.getLast? = some x ∧ (chunks2 l).getLast? = some [x]
  | [], h => by simp at h
  | [a], _ => by simp [chunks2]
  | a :: b :: rest, h => by
    have hlen : rest.length % 2 = 1 := by
      simp only [List.length_cons] at h
      omega
    obtain ⟨x, hx, hcx⟩ := chunks2_getLast?_odd rest hlen
    have hne : rest ≠ [] := by
      intro hnil
      rw [hnil] at hlen
      simp at hlen
    refine ⟨x, ?_, ?_⟩
    · rw [List.getLast?_cons_cons]
      cases rest with
      | nil => exact absurd rfl hne
      | cons c cs => rw [List.getLast?_cons_cons]; exact hx
    · have : chunks2 (a :: b :: rest) = [a, b] :: chunks2 rest := rfl
      rw [this]
      have hcne : chunks2 rest ≠ [] := chunks2_ne_nil hne
      cases hc : chunks2 rest with
      | nil => exact absurd hc hcne
      | cons d ds =>
        rw [hc] at hcx
        rw [List.getLast?_cons_cons]
        exact hcx

theorem assembleRecords_getLast?_odd (comps : List Component)
    (h : comps.length % 2 = 1) :
    ∃ x, comps.getLast? = some x ∧
      (assembleRecords comps).getLast? = some (mkColor [x]) := by
  obtain ⟨x, hx, hcx⟩ := chunks2_getLast?_odd comps h
  refine ⟨x, hx, ?_⟩
  rw [assembleRecords, List.getLast?_map, hcx]
  rfl

/-- C1 (counterexample): the claim says a component sequence of odd length
`2n+1` produces exactly `n = ⌊(2n+1)/2⌋` records, the final unpaired
component being discarded; but the assembler uses `chunks(2)`, which keeps
the final singleton chunk, so the length-3 sequence below produces 2
records, not `3 / 2 = 1`. -/
theorem c1_counterexample :
    [Component.Name ("a"), Component.Rgb 1 2 3, Component.Name ("b")].length
      = 3 ∧
    (assembleRecords
      [Component.Name ("a"), Component.Rgb 1 2 3, Component.Name ("b")]).length
      = 2 ∧
    (assembleRecords
      [Component.Name ("a"), Component.Rgb 1 2 3, Component.Name ("b")]).length
      ≠ 3 / 2 := by
  decide

/-- C1 (amended): for every component sequence of length `m` the Record
Assembler produces exactly `⌈m/2⌉ = (m+1)/2` Color records; in particular an
odd-length sequence of length `2n+1` produces `n+1` records — the final
unpaired component is not discarded but yields one further record. -/
theorem c1_record_count (comps : List Component) :
    (assembleRecords comps).length = (comps.length + 1) / 2 := by
  simp [assembleRecords, chunks2_length]

/-- C2: folding a group of two components sets `name` from whichever member
is a `Name` and `red`/`green`/`blue` from whichever member is an `Rgb`; when
both members have the same variant, the later member wins for that field and
the fields of the other variant keep their defaults (empty string / zero). -/
theorem c2_pair_fold :
    (∀ n r g b, mkColor [Component.Name n, Component.Rgb r g b]
      = ⟨n, r, g, b⟩) ∧
    (∀ n r g b, mkColor [Component.Rgb r g b, Component.Name n]
      = ⟨n, r, g, b⟩) ∧
    (∀ n1 n2, mkColor [Component.Name n1, Component.Name n2]
      = ⟨n2, 0, 0, 0⟩) ∧
    (∀ r1 g1 b1 r2 g2 b2,
      mkColor [Component.Rgb r1 g1 b1, Component.Rgb r2 g2 b2]
      = ⟨"", r2, g2, b2⟩) :=
  ⟨fun _ _ _ _ => rfl, fun _ _ _ _ => rfl, fun _ _ => rfl,
    fun _ _ _ _ _ _ => rfl⟩

/-- C9: for a component sequence of odd length `2n+1`, the final Color
record gets the final component's fields and defaults for the other
variant: a final `Name` yields that name with zero channels, a final `Rgb`
yields an empty name with that triple's channels. -/
theorem c9_odd_final_record (comps : List Component) (n : Nat)
    (h : comps.length = 2 * n + 1) :
    (∀ name, comps.getLast? = some (Component.Name name) →
      (assembleRecords comps).getLast? = some ⟨name, 0, 0, 0⟩) ∧
    (∀ r g b, comps.getLast? = some (Component.Rgb r g b) →
      (assembleRecords comps).getLast? = some ⟨"", r, g, b⟩) := by
  have hodd : comps.length % 2 = 1 := by omega
  obtain ⟨x, hx, hcx⟩ := assembleRecords_getLast?_odd comps hodd
  constructor
  · intro name hlast
    rw [hlast] at hx
    injection hx with hx
    rw [hcx, ← hx]
    rfl
  · intro r g b hlast
    rw [hlast] at hx
    injection hx with hx
    rw [hcx, ← hx]
    rfl

/-- C9 (witness): a concrete odd-length sequence ending in a `Name`
component yields a final record with that name and zero channels. -/
theorem c9_odd_final_record_witness :
    (assembleRecords
      [Component.Rgb 1 2 3, Component.Name ("z"), Component.Name ("q")]).getLast?
      = some ⟨"q", 0, 0, 0⟩ :=
  (c9_odd_final_record
    [Component.Rgb 1 2 3, Component.Name ("z"), Component.Name ("q")] 1
    (by decide)).1 ("q") (by decide)

/-- normalizeChars models the name-normalization chain of the `else` branch
of the classifier closure in `load_colors` (lines 140–146): remove every
`(` and `)`, replace every remaining character that is not an ASCII
alphanumeric by `_`, then lowercase. Rust's `to_lowercase` agrees with the
per-character ASCII `Char.toLower` here because every character surviving
the previous pass is ASCII. -/
def normalizeChars (l : List Char) : List Char :=
  ((l.filter fun c => !(c == '(' || c == ')')).map
    fun c => if c.isAlphanum then c else '_').map Char.toLower

/-- normalizeName is `normalizeChars` lifted to `String`. -/
def normalizeName (s : String) : String :=
  ⟨normalizeChars s.data⟩

/-- normalOutputChar is the character-level invariant of normalization
output: lowercase ASCII letter, ASCII digit, or underscore, and never a
parenthesis. -/
def normalOutputChar (c : Char) : Prop :=
  (c.isLower = true ∨ c.isDigit = true ∨ c = '_') ∧ c ≠ '(' ∧ c ≠ ')'

instance (c : Char) : Decidable (normalOutputChar c) := by
  unfold normalOutputChar
  infer_instance

theorem uint32_le_toNat {a b : UInt32} (h : a ≤ b) : a.toNat ≤ b.toNat := h

theorem map_id_of_eq {l : List α} {f : α → α} (h : ∀ a ∈ l, f a = a) :
    l.map f = l := by
  induction l with
  | nil => rfl
  | cons a t ih =>
    simp only [List.map_cons, h a (List.mem_cons_self a t),
      ih fun b hb => h b (List.mem_cons_of_mem a hb)]

theorem char_prop_of_toNat_le (P : Char → Prop) [DecidablePred P]
    (h : ∀ n ∈ List.range 123, P (Char.ofNat n))
    (c : Char) (hc : c.toNat ≤ 122) : P c := by
  have hmem : c.toNat ∈ List.range 123 := List.mem_range.mpr (by omega)
  have := h c.toNat hmem
  rwa [Char.ofNat_toNat] at this

theorem toNat_le_of_isAlphanum {c : Char} (h : c.isAlphanum = true) :
    c.toNat ≤ 122 := by
  simp only [Char.isAlphanum, Char.isAlpha, Char.isUpper, Char.isLower,
    Char.isDigit, Bool.or_eq_true, Bool.and_eq_true, decide_eq_true_eq] at h
  rcases h with (⟨_, h2⟩ | ⟨_, h2⟩) | ⟨_, h2⟩
  · exact Nat.le_trans (uint32_le_toNat h2) (by decide)
  · exact Nat.le_trans (uint32_le_toNat h2) (by decide)
  · exact Nat.le_trans (uint32_le_toNat h2) (by decide)

theorem toNat_le_of_normalOutputChar {c : Char} (h : normalOutputChar c) :
    c.toNat ≤ 122 := by
  obtain ⟨h1, -, -⟩ := h
  rcases h1 with h1 | h1 | h1
  · simp only [Char.isLower, Bool.and_eq_true, decide_eq_true_eq] at h1
    exact Nat.le_trans (uint32_le_toNat h1.2) (by decide)
  · simp only [Char.isDigit, Bool.and_eq_true, decide_eq_true_eq] at h1
    exact Nat.le_trans (uint32_le_toNat h1.2) (by decide)
  · subst h1; decide

theorem toLower_stage_normal {c : Char} :
    normalOutputChar (Char.toLower (if c.isAlphanum then c else '_')) := by
  by_cases h : c.isAlphanum = true
  · rw [if_pos h]
    exact char_prop_of_toNat_le
      (fun x => x.isAlphanum = true → normalOutputChar (Char.toLower x))
      (by decide) c (toNat_le_of_isAlphanum h) h
  · rw [if_neg h]
    decide

theorem normalOutputChar_fixed {c : Char} (h : normalOutputChar c) :
    (!(c == '(' || c == ')')) = true ∧
    (if c.isAlphanum then c else '_') = c ∧ Char.toLower c = c := by
  exact char_prop_of_toNat_le
    (fun x => normalOutputChar x →
      (!(x == '(' || x == ')')) = true ∧
      (if x.isAlphanum then x else '_') = x ∧ Char.toLower x = x)
    (by decide) c (toNat_le_of_normalOutputChar h) h

/-- C4: every character of a normalized name is a lowercase ASCII letter, an
ASCII digit, or an underscore, and is never `(` or `)`. -/
theorem c4_normalize_output_chars (s : String) :
    ∀ c ∈ (normalizeName s).data,
      (c.isLower = true ∨ c.isDigit = true ∨ c = '_') ∧ c ≠ '(' ∧ c ≠ ')' := by
  intro c hc
  have : normalOutputChar c := by
    simp only [normalizeName, normalizeChars, List.mem_map] at hc
    obtain ⟨d, ⟨e, -, rfl⟩, rfl⟩ := hc
    exact toLower_stage_normal
  exact this

/-- C4 (witness): the normalization of a concrete mixed string satisfies
the character invariant; checked on its first character. -/
theorem c4_normalize_output_chars_witness :
    ('l'.isLower = true ∨ 'l'.isDigit = true ∨ 'l' = '_') ∧
      'l' ≠ '(' ∧ 'l' ≠ ')' :=
  c4_normalize_output_chars ("Light Coral (X)") 'l' (by decide)

theorem normalizeChars_fixed {l : List Char}
    (h : ∀ c ∈ l, normalOutputChar c) : normalizeChars l = l := by
  unfold normalizeChars
  have hfilter : (l.filter fun c => !(c == '(' || c == ')')) = l :=
    List.filter_eq_self.mpr fun c hc => (normalOutputChar_fixed (h c hc)).1
  rw [hfilter]
  have hmap1 : (l.map fun c => if c.isAlphanum then c else '_') = l :=
    map_id_of_eq fun c hc => (normalOutputChar_fixed (h c hc)).2.1
  rw [hmap1]
  exact map_id_of_eq fun c hc => (normalOutputChar_fixed (h c hc)).2.2

/-- C5: name normalization is idempotent — applying it twice yields the
same result as applying it once. -/
theorem c5_normalize_idempotent (s : String) :
    normalizeName (normalizeName s) = normalizeName s := by
  unfold normalizeName
  congr 1
  apply normalizeChars_fixed
  intro c hc
  simp only [normalizeChars, List.mem_map] at hc
  obtain ⟨d, ⟨e, -, rfl⟩, rfl⟩ := hc
  exact toLower_stage_normal

/-- ParseIntErrorKind models the error kinds Rust's `str::parse::<u8>` can
produce on the inputs of this program: empty input, a non-digit character,
or a value exceeding the `u8` range. -/
inductive ParseIntErrorKind where
  | empty
  | invalidDigit
  | posOverflow
deriving DecidableEq

deriving instance DecidableEq for Except

/-- parseU8Digits is the digit-accumulation loop of Rust's
`from_str_radix` for `u8`: each step multiplies by 10 and adds the digit
with overflow checks against the `u8` range (255). -/
def parseU8Digits (acc : Nat) : List Char → Except ParseIntErrorKind Nat
  | [] => .ok acc
  | c :: rest =>
    if c.isDigit then
      if acc * 10 + (c.toNat - 48) ≤ 255 then
        parseU8Digits (acc * 10 + (c.toNat - 48)) rest
      else .error .posOverflow
    else .error .invalidDigit

/-- parseU8 models Rust's `str::parse::<u8>` (as invoked on the regex
captures in `load_colors`): an optional leading `+`, then decimal digits
accumulated with overflow checking; the value is never truncated or
reduced modulo 256. -/
def parseU8 (l : List Char) : Except ParseIntErrorKind Nat :=
  match l with
  | [] => .error .empty
  | c :: rest =>
    if c = '+' then
      if rest.isEmpty then .error .invalidDigit else parseU8Digits 0 rest
    else parseU8Digits 0 (c :: rest)

/-- digitsVal is the mathematical value of a decimal digit string. -/
def digitsVal (l : List Char) : Nat :=
  l.foldl (fun a c => a * 10 + (c.toNat - 48)) 0

theorem parseU8Digits_le : ∀ (l : List Char) (acc n : Nat), acc ≤ 255 →
    parseU8Digits acc l = .ok n → n ≤ 255
  | [], acc, n, hacc, h => by
    simp only [parseU8Digits] at h
    injection h with h
    omega
  | c :: rest, acc, n, hacc, h => by
    simp only [parseU8Digits] at h
    by_cases hd : c.isDigit
    · rw [if_pos hd] at h
      by_cases hle : acc * 10 + (c.toNat - 48) ≤ 255
      · rw [if_pos hle] at h
        exact parseU8Digits_le rest _ n hle h
      · rw [if_neg hle] at h
        exact absurd h (by simp)
    · rw [if_neg hd] at h
      exact absurd h (by simp)

theorem parseU8Digits_overflow : ∀ (l : List Char) (acc : Nat), acc ≤ 255 →
    (∀ c ∈ l, c.isDigit = true) →
    255 < l.foldl (fun a c => a * 10 + (c.toNat - 48)) acc →
    parseU8Digits acc l = .error .posOverflow
  | [], acc, hacc, _, hval => by
    simp only [List.foldl_nil] at hval
    omega
  | c :: rest, acc, hacc, hdig, hval => by
    have hc : c.isDigit = true := hdig c (List.mem_cons_self c rest)
    simp only [parseU8Digits, if_pos hc]
    by_cases hle : acc * 10 + (c.toNat - 48) ≤ 255
    · rw [if_pos hle]
      refine parseU8Digits_overflow rest _ hle
        (fun d hd => hdig d (List.mem_cons_of_mem c hd)) ?_
      simpa only [List.foldl_cons] using hval
    · rw [if_neg hle]

theorem foldl_digits_mono (l : List Char) :
    ∀ acc acc2 : Nat, acc ≤ acc2 →
      l.foldl (fun a c => a * 10 + (c.toNat - 48)) acc ≤
        l.foldl (fun a c => a * 10 + (c.toNat - 48)) acc2 := by
  induction l with
  | nil => intro acc acc2 h; simpa using h
  | cons c rest ih =>
    intro acc acc2 h
    simp only [List.foldl_cons]
    exact ih _ _ (by omega)

theorem parseU8Digits_exact : ∀ (l : List Char) (acc n : Nat),
    parseU8Digits acc l = .ok n →
    n = l.foldl (fun a c => a * 10 + (c.toNat - 48)) acc
  | [], acc, n, h => by
    simp only [parseU8Digits] at h
    injection h with h
    simp [h]
  | c :: rest, acc, n, h => by
    simp only [parseU8Digits] at h
    by_cases hd : c.isDigit
    · rw [if_pos hd] at h
      by_cases hle : acc * 10 + (c.toNat - 48) ≤ 255
      · rw [if_pos hle] at h
        simpa using parseU8Digits_exact rest _ n h
      · rw [if_neg hle] at h
        exact absurd h (by simp)
    · rw [if_neg hd] at h
      exact absurd h (by simp)

/-- C7: a captured numeric substring whose value exceeds the 8-bit unsigned
range fails with a numeric-overflow error — concretely `"256"` — any parsed
result is at most 255 and is the exact decimal value (never truncated or
wrapped), and any all-digit string with value above 255 yields the
overflow error. -/
theorem c7_overflow (l : List Char) :
    parseU8 (("256").data) = .error .posOverflow ∧
    (∀ n, parseU8 l = .ok n → n ≤ 255) ∧
    ((∀ c ∈ l, c.isDigit = true) → 255 < digitsVal l →
      parseU8 l = .error .posOverflow) ∧
    ((∀ c ∈ l, c.isDigit = true) → ∀ n, parseU8 l = .ok n →
      n = digitsVal l) := by
  refine ⟨by decide, ?_, ?_, ?_⟩
  · intro n h
    match l with
    | [] => simp [parseU8] at h
    | c :: rest =>
      simp only [parseU8] at h
      by_cases hp : c = '+'
      · rw [if_pos hp] at h
        by_cases he : rest.isEmpty
        · rw [if_pos he] at h; exact absurd h (by simp)
        · rw [if_neg he] at h; exact parseU8Digits_le rest 0 n (by omega) h
      · rw [if_neg hp] at h
        exact parseU8Digits_le (c :: rest) 0 n (by omega) h
  · intro hdig hval
    match l with
    | [] => simp [digitsVal] at hval
    | c :: rest =>
      have hc : c.isDigit = true := hdig c (List.mem_cons_self c rest)
      have hp : ¬(c = '+') := by
        intro hcp
        rw [hcp] at hc
        exact absurd hc (by decide)
      simp only [parseU8, if_neg hp]
      exact parseU8Digits_overflow (c :: rest) 0 (by omega) hdig hval
  · intro hdig n h
    match l with
    | [] => simp [parseU8] at h
    | c :: rest =>
      have hc : c.isDigit = true := hdig c (List.mem_cons_self c rest)
      have hp : ¬(c = '+') := by
        intro hcp
        rw [hcp] at hc
        exact absurd hc (by decide)
      simp only [parseU8, if_neg hp] at h
      exact parseU8Digits_exact (c :: rest) 0 n h

/-- C7 (witness): instantiating the parse bounds at concrete inputs: the
parse of `"99"` is 99, at most 255 and exactly its decimal value, `"256"`
overflows, and so does the all-digit string `"300"`. -/
theorem c7_overflow_witness :
    parseU8 (("256").data) = .error .posOverflow ∧
    99 ≤ 255 ∧ 99 = digitsVal (("99").data) ∧
    parseU8 (("300").data) = .error .posOverflow := by
  have h := c7_overflow (("99").data)
  have h300 := c7_overflow (("300").data)
  exact ⟨h.1, h.2.1 99 (by decide),
    h.2.2.2 (by decide) 99 (by decide),
    h300.2.2.1 (by decide) (by decide)⟩

/-- tokenRGB is the literal token of the regular expression in
`load_colors` (line 126), exactly as the characters appear in the source
file: a 12-character sequence `U+F8FF ù ó • U+F8FF ù ó ö U+F8FF ù ó ï`
(the MacRoman re-decoding of the UTF-8 bytes of `𝗥𝗚𝗕`). -/
def tokenRGB : List Char :=
  ['', 'ù', 'ó', '•', '', 'ù', 'ó', 'ö', '', 'ù', 'ó', 'ï']

/-- dropLiteral strips an exact literal character sequence from the front
of a list, returning the remainder on success. -/
def dropLiteral : List Char → List Char → Option (List Char)
  | [], l => some l
  | _ :: _, [] => none
  | t :: ts, c :: cs => if c = t then dropLiteral ts cs else none

/-- matchTripleAt tries the regex of `load_colors`
(`token \s+ \( (\d+) \s+ (\d+) \s+ (\d+) \)`) anchored at the start of the
list, returning the three captured digit runs. Greedy maximal-munch is
exact here because the character classes of adjacent pieces are disjoint. -/
def matchTripleAt (l : List Char) : Option (List Char × List Char × List Char) :=
  match dropLiteral tokenRGB l with
  | none => none
  | some l1 =>
    let ws1 := l1.takeWhile Char.isWhitespace
    let l2 := l1.dropWhile Char.isWhitespace
    if ws1.isEmpty then none else
    match l2 with
    | '(' :: l3 =>
      let r := l3.takeWhile Char.isDigit
      let l4 := l3.dropWhile Char.isDigit
      if r.isEmpty then none else
      let ws2 := l4.takeWhile Char.isWhitespace
      let l5 := l4.dropWhile Char.isWhitespace
      if ws2.isEmpty then none else
      let g := l5.takeWhile Char.isDigit
      let l6 := l5.dropWhile Char.isDigit
      if g.isEmpty then none else
      let ws3 := l6.takeWhile Char.isWhitespace
      let l7 := l6.dropWhile Char.isWhitespace
      if ws3.isEmpty then none else
      let b := l7.takeWhile Char.isDigit
      let l8 := l7.dropWhile Char.isDigit
      if b.isEmpty then none else
      match l8 with
      | ')' :: _ => some (r, g, b)
      | _ => none
    | _ => none

/-- capturesRGB models `Regex::captures`: scan start positions left to
right and return the captures of the leftmost match, or `none`. -/
def capturesRGB (l : List Char) : Option (List Char × List Char × List Char) :=
  match l with
  | [] => none
  | c :: rest =>
    match matchTripleAt (c :: rest) with
    | some t => some t
    | none => capturesRGB rest

/-- C3 (code bug): the regex literal in the source is not the 3-character
stylized `𝗥𝗚𝗕` token the claim describes but a 12-character mojibake of its
UTF-8 bytes, so an input containing the stylized token followed by
`" (240 128 128)"` produces no match; the structural part of the pattern
does capture `("240","128","128")` after the file's own 12-character
literal. -/
theorem c3_pattern_token_bug :
    tokenRGB.length = 12 ∧
    capturesRGB (("𝗥𝗚𝗕 (240 128 128)").data) = none ∧
    capturesRGB (tokenRGB ++ (" (240 128 128)").data)
      = some (("240").data, ("128").data, ("128").data) := by
  decide

/-- trimChars models Rust's `str::trim`: remove leading and trailing
whitespace. -/
def trimChars (l : List Char) : List Char :=
  ((l.dropWhile Char.isWhitespace).reverse.dropWhile Char.isWhitespace).reverse

/-- ExtractErr names the distinct failure points of the classifier closure
in `load_colors`; in the source each is an `unwrap` panic, modelled as an
error value: the `title` attribute absent, the regex not matching, and the
two `u8` parse failures. -/
inductive ExtractErr where
  | missingAttribute
  | patternNotFound
  | invalidDigits
  | numericOverflow
deriving DecidableEq

/-- parseErrToExtractErr maps a `u8` parse failure to the error taxonomy:
overflow is `numericOverflow`, anything else is `invalidDigits`. -/
def parseErrToExtractErr : ParseIntErrorKind → ExtractErr
  | .posOverflow => .numericOverflow
  | _ => .invalidDigits

/-- HtmlNode abstracts one selected markup node by the two accessors the
classifier uses: concatenated visible text, and the `title` attribute. -/
structure HtmlNode where
  text : String
  title : Option String
deriving DecidableEq

/-- colorExtractor models the `color_extractor` closure of `load_colors`
(lines 127–148): empty trimmed text means an RGB node (read `title`, run
the pattern, parse three `u8`s), non-empty trimmed text means a name node
(normalize the trimmed text). -/
def colorExtractor (e : HtmlNode) : Except ExtractErr Component :=
  let text := trimChars e.text.data
  if text.isEmpty then
    match e.title with
    | none => .error .missingAttribute
    | some values =>
      match capturesRGB values.data with
      | none => .error .patternNotFound
      | some (r, g, b) =>
        match parseU8 r with
        | .error k => .error (parseErrToExtractErr k)
        | .ok red =>
          match parseU8 g with
          | .error k => .error (parseErrToExtractErr k)
          | .ok green =>
            match parseU8 b with
            | .error k => .error (parseErrToExtractErr k)
            | .ok blue => .ok (.Rgb red green blue)
  else
    .ok (.Name (normalizeName ⟨text⟩))

/-- classifyNodes maps the classifier over the selected nodes in order;
the first failure aborts the whole pass (in the source, the panic
propagates out of `collect`). -/
def classifyNodes : List HtmlNode → Except ExtractErr (List Component)
  | [] => .ok []
  | n :: rest =>
    match colorExtractor n with
    | .error err => .error err
    | .ok c =>
      match classifyNodes rest with
      | .error err => .error err
      | .ok cs => .ok (c :: cs)

/-- load_colors models the core pipeline of `load_colors` after node
selection: classify every node, then assemble records from the component
sequence. -/
def load_colors (ns : List HtmlNode) : Except ExtractErr (List Color) :=
  match classifyNodes ns with
  | .error err => .error err
  | .ok comps => .ok (assembleRecords comps)

theorem classifyNodes_error {err : ExtractErr} :
    ∀ (pre : List HtmlNode) (node : HtmlNode) (post : List HtmlNode),
      colorExtractor node = .error err →
      (∀ m ∈ pre, ∃ c, colorExtractor m = .ok c) →
      classifyNodes (pre ++ node :: post) = .error err
  | [], node, post, hnode, _ => by
    simp only [List.nil_append, classifyNodes, hnode]
  | m :: pre, node, post, hnode, hpre => by
    obtain ⟨c, hc⟩ := hpre m (List.mem_cons_self m pre)
    have ih := classifyNodes_error pre node post hnode
      fun x hx => hpre x (List.mem_cons_of_mem m hx)
    simp only [List.cons_append, classifyNodes, hc, List.append_eq, ih]

/-- C6: a node with empty trimmed visible text and no `title` attribute
makes the classifier fail with the missing-attribute error, and the whole
run fails with that error (no partial output) whenever every node before it
classifies successfully. -/
theorem c6_missing_attribute (node : HtmlNode)
    (htext : trimChars node.text.data = [])
    (htitle : node.title = none) :
    colorExtractor node = .error .missingAttribute ∧
    ∀ pre post, (∀ m ∈ pre, ∃ c, colorExtractor m = .ok c) →
      load_colors (pre ++ node :: post) = .error .missingAttribute := by
  have hext : colorExtractor node = .error .missingAttribute := by
    simp only [colorExtractor, htext, htitle, List.isEmpty_nil, if_true]
  refine ⟨hext, fun pre post hpre => ?_⟩
  have h := classifyNodes_error pre node post hext hpre
  simp only [load_colors, h]

/-- C6 (witness): a run over a well-formed name node followed by an
attribute-less RGB-candidate node aborts with the missing-attribute
error. -/
theorem c6_missing_attribute_witness :
    colorExtractor ⟨"", none⟩ = .error .missingAttribute ∧
    load_colors [⟨"x", none⟩, ⟨"", none⟩] = .error .missingAttribute := by
  have h := c6_missing_attribute ⟨"", none⟩ (by decide) rfl
  refine ⟨h.1, ?_⟩
  have h2 := h.2 [⟨"x", none⟩] [] ?_
  · simpa using h2
  · intro m hm
    rw [List.mem_singleton] at hm
    subst hm
    exact ⟨Component.Name (normalizeName ("x")), by decide⟩

/-- csvLine is one record line of `generate_csv` (lines 88–94): the four
fields comma-joined, no quoting or escaping, terminated by a newline. -/
def csvLine (color : Color) : String :=
  color.name ++ "," ++ toString color.red ++ "," ++ toString color.green
    ++ "," ++ toString color.blue ++ "\n"

/-- generate_csv models `generate_csv` (lines 83–97): start from an empty
buffer, append the header line, then append one line per record in order. -/
def generate_csv (nodes : List Color) : String :=
  nodes.foldl (fun buf color => buf ++ csvLine color)
    ("" ++ "name,red,green,blue\n")

/-- xmlLine is one record line of `generate_xml` (lines 105–111): a
self-closing `color` element with the four fields as attribute values. -/
def xmlLine (color : Color) : String :=
  "  <color name=\"" ++ color.name ++ "\" red=\"" ++ toString color.red
    ++ "\" green=\"" ++ toString color.green ++ "\" blue=\""
    ++ toString color.blue ++ "\" />\n"

/-- generate_xml models `generate_xml` (lines 99–116): the raw string
written first is `r#""<?xml ... ?>""#`, whose contents include a leading
and a trailing double-quote character around the XML declaration; then the
`<colors>` open tag, the record lines, and the close tag. -/
def generate_xml (nodes : List Color) : String :=
  (nodes.foldl (fun buf color => buf ++ xmlLine color)
    ("" ++ "\"<?xml version=\"1.0\" encoding=\"UTF-8\"?>\"\n" ++ "<colors>\n"))
    ++ "</colors>\n"

/-- lineConcat concatenates one formatted line per record, in order. -/
def lineConcat (f : Color → String) : List Color → String
  | [] => ""
  | c :: rest => f c ++ lineConcat f rest

theorem data_empty : ("" : String).data = [] := rfl

theorem foldl_append_lines (f : Color → String) :
    ∀ (l : List Color) (buf : String),
      l.foldl (fun b c => b ++ f c) buf = buf ++ lineConcat f l
  | [], buf => by
    apply String.ext
    simp [lineConcat, data_empty]
  | c :: rest, buf => by
    apply String.ext
    have ih := foldl_append_lines f rest (buf ++ f c)
    simp only [List.foldl_cons, ih, lineConcat, String.data_append,
      List.append_assoc]

/-- C8: the CSV formatter outputs the header line `name,red,green,blue`
followed by one line per record, the four fields comma-joined in record
order with no quoting or escaping; in particular a single
`light_coral / 240 / 128 / 128` record yields exactly the header line
followed by `light_coral,240,128,128`. -/
theorem c8_generate_csv (nodes : List Color) :
    generate_csv nodes = "name,red,green,blue\n" ++ lineConcat csvLine nodes ∧
    generate_csv [⟨"light_coral", 240, 128, 128⟩]
      = "name,red,green,blue\nlight_coral,240,128,128\n" := by
  constructor
  · rw [generate_csv, foldl_append_lines]
    apply String.ext
    simp [data_empty]
  · decide

/-- C10: the XML formatter's output begins with a first line that is the
XML declaration text enclosed in an extra leading and trailing double-quote
character (so it is not a well-formed XML declaration), followed by the
`<colors>` root element line. -/
theorem c10_generate_xml (nodes : List Color) :
    (∃ rest, (generate_xml nodes).data
      = ("\"<?xml version=\"1.0\" encoding=\"UTF-8\"?>\"\n<colors>\n").data
          ++ rest) ∧
    (generate_xml nodes).data.takeWhile (fun c => !(c == '\n'))
      = ("\"<?xml version=\"1.0\" encoding=\"UTF-8\"?>\"").data := by
  have hdata : (generate_xml nodes).data
      = ("\"<?xml version=\"1.0\" encoding=\"UTF-8\"?>\"\n<colors>\n").data
          ++ ((lineConcat xmlLine nodes) ++ "</colors>\n").data := by
    rw [generate_xml, foldl_append_lines]
    simp [data_empty]
  constructor
  · exact ⟨_, hdata⟩
  · rw [hdata]
    simp [List.takeWhile_cons]

end Colors
